import Mathlib

set_option maxRecDepth 4000

/-!
Verification development for the ebook build script (`build_ebook_v2.py`).

The script walks a per-language directory tree of Markdown chapter
fragments, derives an ordering prefix and a title from each entry's
file name, sorts the fragments by prefix, rewrites link/image
references in each fragment, and concatenates everything into one
merged Markdown document.

Strings are modelled as `List Char`; Python text functions used by the
script (`str.replace`, `str.split`, `str.join`, `str.lower`,
`pathlib.PurePath.stem`, `re.sub` with the four concrete patterns of
the script) are embedded below.  `re.sub` with a literal pattern is a
leftmost, non-overlapping scan that never rescans replacement text;
the embeddings use a character-count fuel (first argument of the
`...Aux` functions) so that they are structurally recursive; with fuel
equal to the length of the scanned string the scan always runs to the
end of the string, and the lemmas below are proved for every
sufficient fuel.
-/

/-- Python `s.split(sep)` for a one-character separator `sep`:
splits on every single occurrence, keeping empty pieces, and yields
`[s]` (in particular a non-empty list) when `sep` does not occur. -/
def splitOnChar (sep : Char) : List Char → List (List Char)
  | [] => [[]]
  | c :: rest =>
      let r := splitOnChar sep rest
      if c = sep then [] :: r
      else
        match r with
        | [] => [[c]]
        | t :: ts => (c :: t) :: ts

/-- Python `" ".join(pieces)`. -/
def joinSpace : List (List Char) → List Char
  | [] => []
  | [t] => t
  | t :: ts => t ++ ' ' :: joinSpace ts

/-- Python `s.replace('_', ' ')` (character-wise map). -/
def underToSpace (s : List Char) : List Char :=
  s.map (fun c => if c = '_' then ' ' else c)

/-- Python `re.sub('_', '-', s)` (character-wise map). -/
def underToHyphen (s : List Char) : List Char :=
  s.map (fun c => if c = '_' then '-' else c)

/-- Python `str.lower` on one character, restricted to the ASCII
letters that occur in the script's inputs: `'A'..'Z'` map to
`'a'..'z'`, everything else is unchanged. -/
def lowerChar (c : Char) : Char :=
  if 65 ≤ c.toNat ∧ c.toNat ≤ 90 then Char.ofNat (c.toNat + 32) else c

/-- Python `s.lower()`. -/
def lowerStr (s : List Char) : List Char :=
  s.map lowerChar

/-- Index of the last occurrence of `'.'`, Python `name.rfind('.')`
(`none` when absent). -/
def rfindDot : List Char → Option Nat
  | [] => none
  | c :: rest =>
      match rfindDot rest with
      | some i => some (i + 1)
      | none => if c = '.' then some 0 else none

/-- Python `pathlib.PurePath(name).stem`: the name without its last
suffix; the suffix exists only when the last dot index `i` satisfies
`0 < i < len(name) - 1`. -/
def stem (name : List Char) : List Char :=
  match rfindDot name with
  | some i => if 0 < i ∧ i < name.length - 1 then name.take i else name
  | none => name

/-- Tokens of an entry name, from the script:
`entry.stem.replace('_', ' ').split(" ")` (the `stem` is applied by
the caller). -/
def tokensOf (s : List Char) : List (List Char) :=
  splitOnChar ' ' (underToSpace s)

/-- First token of an entry's stem, the script's `title_tokens[0]`
(the ordering token). -/
def firstToken (s : List Char) : List Char :=
  (tokensOf s).headD []

/-- Title of an entry's stem, the script's `' '.join(title_tokens[1:])`. -/
def titleOf (s : List Char) : List Char :=
  joinSpace (tokensOf s).tail

/-- Python `target.split('/')[-1]`: the final path segment. -/
def lastSegment (s : List Char) : List Char :=
  (splitOnChar '/' s).getLastD []

/-- Whether `pat` occurs as a contiguous substring of `s`. -/
def occurs (pat : List Char) : List Char → Bool
  | [] => pat.isEmpty
  | c :: s => pat.isPrefixOf (c :: s) || occurs pat s

/-- Scan for `re.sub` with a literal pattern `pat` and literal
replacement `rep`: leftmost, non-overlapping, replacement text not
rescanned.  The `Nat` argument is fuel; one unit is spent per scan
step, and a step consumes at least one character, so fuel equal to
the length of the string completes the scan. -/
def subLitAux (pat rep : List Char) : Nat → List Char → List Char
  | 0, s => s
  | _ + 1, [] => []
  | n + 1, c :: s =>
      if pat.isPrefixOf (c :: s) then
        rep ++ subLitAux pat rep n (List.drop pat.length (c :: s))
      else
        c :: subLitAux pat rep n s

/-- Python `re.sub(pat, rep, s)` for a literal pattern. -/
def subLit (pat rep s : List Char) : List Char :=
  subLitAux pat rep s.length s

/-- Attempt to match the script's chapter-reference regex
`\]\(!([^)]+)\)` at the head of the string: on success returns the
captured group (the non-empty run of non-`')'` characters) and the
remainder of the string after the closing parenthesis. -/
def crMatch : List Char → Option (List Char × List Char)
  | ']' :: '(' :: '!' :: rest =>
      match rest.dropWhile (fun c => c ≠ ')') with
      | ')' :: after =>
          if (rest.takeWhile (fun c => c ≠ ')')).isEmpty then none
          else some (rest.takeWhile (fun c => c ≠ ')'), after)
      | _ => none
  | _ => none

/-- The script's `repl` callback: lower-case the captured target,
replace underscores with hyphens, keep the last `/`-segment, and emit
an in-page anchor link. -/
def crossRepl (tgt : List Char) : List Char :=
  ']' :: '(' :: '#' :: lastSegment (underToHyphen (lowerStr tgt)) ++ [')']

/-- Fueled scan for `re.sub(r'\]\(!([^)]+)\)', repl, s)`. -/
def subCRAux : Nat → List Char → List Char
  | 0, s => s
  | _ + 1, [] => []
  | n + 1, c :: s =>
      match crMatch (c :: s) with
      | some (tgt, after) => crossRepl tgt ++ subCRAux n after
      | none => c :: subCRAux n s

/-- Python `re.sub(r'\]\(!([^)]+)\)', repl, s)`. -/
def subCrossRef (s : List Char) : List Char :=
  subCRAux s.length s

/-- Whether the chapter-reference regex matches anywhere in `s`. -/
def hasCrossRef : List Char → Bool
  | [] => false
  | c :: s => (crMatch (c :: s)).isSome || hasCrossRef s

/-- Literal pattern of rewrite step 1, `r'\/images\/'`. -/
def imagesAbs : List Char := "/images/".data

/-- Replacement of rewrite step 1. -/
def imagesRel : List Char := "images/".data

/-- Literal pattern of rewrite step 2, `r'\.svg'`. -/
def svgExt : List Char := ".svg".data

/-- Replacement of rewrite step 2. -/
def pngExt : List Char := ".png".data

/-- Literal pattern of rewrite step 3, `r'\]\(\/'`. -/
def rootLink : List Char := "](/".data

/-- Replacement of rewrite step 3. -/
def siteUrl : List Char := "](https://vulkan-tutorial.com/".data

/-- The four-step reference-rewrite pipeline of
`generate_markdown_from_sources`, in the script's order: image path
normalization, image format retargeting, root-relative link
absolutization, chapter-reference resolution. -/
def rewriteContent (s : List Char) : List Char :=
  subCrossRef (subLit rootLink siteUrl (subLit svgExt pngExt (subLit imagesAbs imagesRel s)))

/-- The `VTEMarkdownFile` class: one discovered chapter fragment. -/
structure VTEMarkdownFile where
  content : List Char
  depth : Nat
  pfx : List Char
  title : List Char
deriving DecidableEq

mutual
/-- A directory entry as seen by `pathlib.Path.iterdir`: a file whose
read either yields text or raises, or a subdirectory with its own
entries.  (`EntryList` is an inlined list so that the walker is
structurally recursive.) -/
inductive Entry where
  | file (name : List Char) (readResult : Except String (List Char)) : Entry
  | dir (name : List Char) (children : EntryList) : Entry
inductive EntryList where
  | nil : EntryList
  | cons (e : Entry) (es : EntryList) : EntryList
end

/-- Conversion from an ordinary list, for readable concrete trees. -/
def ofList : List Entry → EntryList
  | [] => .nil
  | e :: es => .cons e (ofList es)

mutual
/-- Body of the `for entry in iterdir()` loop of
`_process_files_in_directory` for a single entry: compute the tokens
of `entry.stem`, the child prefix `parent_prefix + tokens[0] + "."`,
then either recurse into a directory or read the file and append a
`VTEMarkdownFile(content, current_depth, prefix, title)`; a read
failure aborts with the error. -/
def walkEntry : Entry → Nat → List Char → List VTEMarkdownFile →
    Except String (List VTEMarkdownFile)
  | .file name rr, d, p, acc =>
      match rr with
      | .ok content =>
          .ok (acc ++ [{ content := content, depth := d,
                         pfx := p ++ firstToken (stem name) ++ ['.'],
                         title := titleOf (stem name) }])
      | .error m => .error m
  | .dir name ch, d, p, acc =>
      walkList ch (d + 1) (p ++ firstToken (stem name) ++ ['.']) acc

/-- The loop of `_process_files_in_directory` over the entries of one
directory, threading the accumulator. -/
def walkList : EntryList → Nat → List Char → List VTEMarkdownFile →
    Except String (List VTEMarkdownFile)
  | .nil, _, _, acc => .ok acc
  | .cons e es, d, p, acc =>
      match walkEntry e d p acc with
      | .ok acc2 => walkList es d p acc2
      | .error m => .error m
end

/-- `_process_files_in_directory(directory, current_depth,
parent_prefix, markdown_files)`: when the accumulator argument is
absent (`none`, the Python default `None`) a fresh empty list is
created. -/
def process_files_in_directory (entries : EntryList) (current_depth : Nat)
    (parentPfx : List Char) (markdown_files : Option (List VTEMarkdownFile)) :
    Except String (List VTEMarkdownFile) :=
  walkList entries current_depth parentPfx (markdown_files.getD [])

/-- Python string `<` (lexicographic by code point). -/
def strLt : List Char → List Char → Bool
  | _, [] => false
  | [], _ :: _ => true
  | a :: as, b :: bs =>
      if a.toNat < b.toNat then true
      else if a = b then strLt as bs
      else false

/-- Total preorder used for sorting: `a ≤ b` iff not `b < a`. -/
def strLe (a b : List Char) : Bool :=
  !(strLt b a)

/-- Stable insertion for `insertionSortBy`. -/
def insertLe {α : Type} (le : α → α → Bool) (x : α) : List α → List α
  | [] => [x]
  | y :: ys => if le x y then x :: y :: ys else y :: insertLe le x ys

/-- Stable insertion sort; models Python's stable `sorted`. -/
def insertionSortBy {α : Type} (le : α → α → Bool) : List α → List α
  | [] => []
  | x :: xs => insertLe le x (insertionSortBy le xs)

/-- The script's `sorted(md_files, key=lambda file: file.prefix)`. -/
def sortByPfx (files : List VTEMarkdownFile) : List VTEMarkdownFile :=
  insertionSortBy (fun a b => strLe a.pfx b.pfx) files

/-- One loop iteration of `generate_markdown_from_sources`: prepend
the title heading (`'# ' + entry.title + '\n\n' + entry.content`) and
run the four rewrite steps on the result. -/
def renderFragment (f : VTEMarkdownFile) : List Char :=
  rewriteContent ('#' :: ' ' :: f.title ++ '\n' :: '\n' :: f.content)

/-- `generate_markdown_from_sources`: walk the language root (with the
default depth `0`, empty prefix and absent accumulator), sort the
fragments by prefix, render each fragment and append it followed by a
blank line to the output string; only after every fragment has been
read and rewritten is the result written out (modelled by returning
`Except.ok` of the full document; a read failure propagates as
`Except.error` and nothing is written). -/
def generate_markdown_from_sources (languageRoot : EntryList) :
    Except String (List Char) :=
  match process_files_in_directory languageRoot 0 [] none with
  | .error m => .error m
  | .ok md_files =>
      .ok (((sortByPfx md_files).map renderFragment).foldl
        (fun acc sec => acc ++ sec ++ '\n' :: '\n' :: []) [])

mutual
/-- Whether some file of the tree fails to read. -/
def entryUnreadable : Entry → Bool
  | .file _ (.error _) => true
  | .file _ (.ok _) => false
  | .dir _ ch => listUnreadable ch
/-- Whether some file of a list of entries fails to read. -/
def listUnreadable : EntryList → Bool
  | .nil => false
  | .cons e es => entryUnreadable e || listUnreadable es
end

/-- The spec's end-to-end scenario tree: a root with
`1_Introduction.md` (content `Hello [there](!/2_Setup)`) and a
subdirectory `2_Setup/` holding `1_Install.md` (content
`Install steps.`). -/
def introTree : EntryList :=
  ofList
    [Entry.file "1_Introduction.md".data (Except.ok "Hello [there](!/2_Setup)".data),
     Entry.dir "2_Setup".data
       (ofList [Entry.file "1_Install.md".data (Except.ok "Install steps.".data)])]

/-- A root with a single file whose derived title contains the
substring `.svg`. -/
def svgTitleTree : EntryList :=
  ofList [Entry.file "1_Chapter_about_.svg_files.md".data (Except.ok "body".data)]

/-- A root with one readable file and one file whose read fails. -/
def badTree : EntryList :=
  ofList
    [Entry.file "1_Intro.md".data (Except.ok "text".data),
     Entry.file "2_Broken.md".data (Except.error "UnicodeDecodeError: 2_Broken.md")]

/-! ### Basic lemmas about the embedded text functions -/

theorem occurs_cons (pat : List Char) (c : Char) (s : List Char) :
    occurs pat (c :: s) = (pat.isPrefixOf (c :: s) || occurs pat s) := rfl

/-- A string free of the literal pattern is left unchanged by the
literal-substitution scan, for every fuel. -/
theorem subLitAux_id (pat rep : List Char) :
    ∀ (n : Nat) (s : List Char), occurs pat s = false → subLitAux pat rep n s = s := by
  intro n
  induction n with
  | zero => intro s _; rfl
  | succ n ih =>
    intro s h
    cases s with
    | nil => rfl
    | cons c s =>
      rw [occurs_cons, Bool.or_eq_false_iff] at h
      simp only [subLitAux, h.1, Bool.false_eq_true, if_false]
      rw [ih s h.2]

theorem subLit_id (pat rep s : List Char) (h : occurs pat s = false) :
    subLit pat rep s = s :=
  subLitAux_id pat rep s.length s h

theorem hasCrossRef_cons (c : Char) (s : List Char) :
    hasCrossRef (c :: s) = ((crMatch (c :: s)).isSome || hasCrossRef s) := rfl

/-- A string in which the chapter-reference regex never matches is
left unchanged by the chapter-reference scan, for every fuel. -/
theorem subCRAux_id :
    ∀ (n : Nat) (s : List Char), hasCrossRef s = false → subCRAux n s = s := by
  intro n
  induction n with
  | zero => intro s _; rfl
  | succ n ih =>
    intro s h
    cases s with
    | nil => rfl
    | cons c s =>
      rw [hasCrossRef_cons, Bool.or_eq_false_iff] at h
      have hm : crMatch (c :: s) = none := by
        cases hcm : crMatch (c :: s) with
        | none => rfl
        | some v => rw [hcm] at h; exact absurd h.1 (by simp)
      simp only [subCRAux, hm]
      rw [ih s h.2]

theorem subCrossRef_id (s : List Char) (h : hasCrossRef s = false) :
    subCrossRef s = s :=
  subCRAux_id s.length s h

theorem splitOnChar_ne_nil (sep : Char) (s : List Char) : splitOnChar sep s ≠ [] := by
  cases s with
  | nil => simp [splitOnChar]
  | cons c rest =>
    simp only [splitOnChar]
    split
    · simp
    · cases h : splitOnChar sep rest <;> simp

/-- `splitOnChar` commutes with a character map that neither destroys
nor creates the separator. -/
theorem splitOnChar_map (sep : Char) (f : Char → Char)
    (hf : ∀ c, f c = sep ↔ c = sep) :
    ∀ s : List Char, splitOnChar sep (s.map f) = (splitOnChar sep s).map (List.map f) := by
  intro s
  induction s with
  | nil => rfl
  | cons c rest ih =>
    simp only [List.map_cons, splitOnChar, ih]
    by_cases hc : c = sep
    · rw [if_pos ((hf c).2 hc), if_pos hc]
      rfl
    · rw [if_neg (fun h => hc ((hf c).1 h)), if_neg hc]
      cases h : splitOnChar sep rest with
      | nil => exact absurd h (splitOnChar_ne_nil sep rest)
      | cons t ts => rfl

theorem getLastD_map {α β : Type} (g : α → β) :
    ∀ (l : List α) (d : α), l ≠ [] → (l.map g).getLastD (g d) = g (l.getLastD d) := by
  intro l
  induction l with
  | nil => intro d h; exact absurd rfl h
  | cons x xs ih =>
    intro d _
    cases xs with
    | nil => rfl
    | cons y ys =>
      rw [List.map_cons, List.getLastD_cons, List.getLastD_cons]
      exact ih x (by simp)

/-- The final path segment commutes with a character map that neither
destroys nor creates `'/'`. -/
theorem lastSegment_map (f : Char → Char) (hf : ∀ c, f c = '/' ↔ c = '/')
    (s : List Char) : lastSegment (s.map f) = (lastSegment s).map f := by
  unfold lastSegment
  rw [splitOnChar_map '/' f hf s]
  have hne := splitOnChar_ne_nil '/' s
  have := getLastD_map (List.map f) (splitOnChar '/' s) [] hne
  simpa using this

theorem char_toNat_ofNat_valid (n : Nat) (h : n.isValidChar) :
    (Char.ofNat n).toNat = n := by
  rw [Char.ofNat, dif_pos h]
  rfl

theorem lowerChar_slash_iff (c : Char) : lowerChar c = '/' ↔ c = '/' := by
  constructor
  · intro h
    unfold lowerChar at h
    split at h
    · rename_i hr
      exfalso
      have h47 : (Char.ofNat (c.toNat + 32)).toNat = 47 := by rw [h]; rfl
      have hv : (c.toNat + 32).isValidChar := Or.inl (by omega)
      rw [char_toNat_ofNat_valid _ hv] at h47
      omega
    · exact h
  · intro h
    subst h
    rfl

theorem hyphenChar_slash_iff (c : Char) :
    (if c = '_' then '-' else c) = '/' ↔ c = '/' := by
  by_cases h : c = '_'
  · subst h
    decide
  · simp [h]

/-- The script normalizes a chapter-reference target by lower-casing,
replacing underscores with hyphens, and then taking the final path
segment; this equals first taking the final path segment and then
applying the two character maps (the order stated by the spec). -/
theorem crossNormalize_comm (tgt : List Char) :
    lastSegment (underToHyphen (lowerStr tgt)) =
      underToHyphen (lowerStr (lastSegment tgt)) := by
  unfold underToHyphen lowerStr
  rw [lastSegment_map _ hyphenChar_slash_iff, lastSegment_map lowerChar lowerChar_slash_iff]

/-- Head match of the chapter-reference regex on a string of the shape
`](!` ++ target ++ `)` ++ rest: the greedy `[^)]+` captures exactly the
target when the target is non-empty and free of `')'`. -/
theorem crMatch_spec (p rest : List Char) (hne : p ≠ []) (hp : ∀ c ∈ p, c ≠ ')') :
    crMatch (']' :: '(' :: '!' :: (p ++ ')' :: rest)) = some (p, rest) := by
  have hq : ∀ c ∈ p, (fun c => decide (c ≠ ')')) c = true := by
    intro c hc
    simp [hp c hc]
  have hdrop : List.dropWhile (fun c => c ≠ ')') (p ++ ')' :: rest) = ')' :: rest := by
    rw [List.dropWhile_append_of_pos hq]
    simp
  have htake : List.takeWhile (fun c => c ≠ ')') (p ++ ')' :: rest) = p := by
    rw [List.takeWhile_append_of_pos hq]
    simp
  have hB : p.isEmpty = false := by
    cases p with
    | nil => exact absurd rfl hne
    | cons a l => rfl
  simp only [crMatch, hdrop, htake, hB]
  simp

/-- Inversion of a successful head match of the chapter-reference
regex: the scanned string decomposes as `](!` ++ target ++ `)` ++
remainder with a non-empty target. -/
theorem crMatch_some :
    ∀ {s tgt after : List Char}, crMatch s = some (tgt, after) →
      s = ']' :: '(' :: '!' :: (tgt ++ ')' :: after) ∧ tgt ≠ [] := by
  intro s tgt after h
  unfold crMatch at h
  split at h
  · rename_i rest
    split at h
    · rename_i after' heq
      split at h
      · exact absurd h (by simp)
      · rename_i hempty
        injection h with h2
        injection h2 with h3 h4
        subst h3
        subst h4
        constructor
        · have hdec := List.takeWhile_append_dropWhile (fun c => decide (c ≠ ')')) rest
          rw [heq] at hdec
          rw [hdec]
        · intro hnil
          rw [hnil] at hempty
          exact hempty rfl
    · exact absurd h (by simp)
  · exact absurd h (by simp)

theorem crMatch_length {c : Char} {s tgt after : List Char}
    (h : crMatch (c :: s) = some (tgt, after)) : after.length + 3 ≤ s.length := by
  obtain ⟨hshape, hne⟩ := crMatch_some h
  have hs : s = '(' :: '!' :: (tgt ++ ')' :: after) := by
    injection hshape with _ h2
  have htl : 1 ≤ tgt.length := List.length_pos.mpr hne
  have hlen : s.length = 2 + (tgt.length + (1 + after.length)) := by
    rw [hs]
    simp [List.length_append]
    omega
  omega

/-- The chapter-reference scan does not depend on the fuel, as long as
the fuel covers the length of the string. -/
theorem subCRAux_fuel :
    ∀ (k m n : Nat) (s : List Char), s.length ≤ k → s.length ≤ m → s.length ≤ n →
      subCRAux m s = subCRAux n s := by
  intro k
  induction k with
  | zero =>
    intro m n s hk _ _
    have hs : s = [] := List.eq_nil_of_length_eq_zero (Nat.le_zero.mp hk)
    subst hs
    cases m <;> cases n <;> rfl
  | succ k ih =>
    intro m n s hk hm hn
    cases s with
    | nil => cases m <;> cases n <;> rfl
    | cons c s' =>
      simp only [List.length_cons] at hk hm hn
      cases m with
      | zero => omega
      | succ m' =>
        cases n with
        | zero => omega
        | succ n' =>
          simp only [subCRAux]
          cases hcm : crMatch (c :: s') with
          | none => rw [ih m' n' s' (by omega) (by omega) (by omega)]
          | some v =>
            obtain ⟨tgt, after⟩ := v
            have hl := crMatch_length hcm
            simp only []
            rw [ih m' n' after (by omega) (by omega) (by omega)]

theorem subCrossRef_cons_none {c : Char} {s : List Char} (h : crMatch (c :: s) = none) :
    subCrossRef (c :: s) = c :: subCrossRef s := by
  unfold subCrossRef
  simp only [List.length_cons, subCRAux, h]

theorem subCrossRef_cons_some {c : Char} {s tgt after : List Char}
    (h : crMatch (c :: s) = some (tgt, after)) :
    subCrossRef (c :: s) = crossRepl tgt ++ subCrossRef after := by
  have hl := crMatch_length h
  unfold subCrossRef
  simp only [List.length_cons, subCRAux, h]
  rw [subCRAux_fuel s.length s.length after.length after (by omega) (by omega) (Nat.le_refl _)]

/-- The literal-substitution scan does not depend on the fuel, as long
as the fuel covers the length of the string (for a non-empty pattern). -/
theorem subLitAux_fuel (pat rep : List Char) (hpat : pat ≠ []) :
    ∀ (k m n : Nat) (s : List Char), s.length ≤ k → s.length ≤ m → s.length ≤ n →
      subLitAux pat rep m s = subLitAux pat rep n s := by
  have hplen : 1 ≤ pat.length := List.length_pos.mpr hpat
  intro k
  induction k with
  | zero =>
    intro m n s hk _ _
    have hs : s = [] := List.eq_nil_of_length_eq_zero (Nat.le_zero.mp hk)
    subst hs
    cases m <;> cases n <;> rfl
  | succ k ih =>
    intro m n s hk hm hn
    cases s with
    | nil => cases m <;> cases n <;> rfl
    | cons c s' =>
      simp only [List.length_cons] at hk hm hn
      cases m with
      | zero => omega
      | succ m' =>
        cases n with
        | zero => omega
        | succ n' =>
          simp only [subLitAux]
          rcases Bool.eq_false_or_eq_true (pat.isPrefixOf (c :: s')) with hpre | hpre
          · have hd : (List.drop pat.length (c :: s')).length = s'.length + 1 - pat.length := by
              simp [List.length_drop]
            have hih := ih m' n' (List.drop pat.length (c :: s')) (by omega) (by omega) (by omega)
            simp [hpre, hih]
          · have hih := ih m' n' s' (by omega) (by omega) (by omega)
            simp [hpre, hih]

theorem subLit_cons_of_isPre {pat rep : List Char} (hpat : pat ≠ []) {c : Char} {s : List Char}
    (h : pat.isPrefixOf (c :: s) = true) :
    subLit pat rep (c :: s) = rep ++ subLit pat rep (List.drop pat.length (c :: s)) := by
  have hplen : 1 ≤ pat.length := List.length_pos.mpr hpat
  unfold subLit
  simp only [List.length_cons, subLitAux, h, if_true]
  congr 1
  have hd : (List.drop pat.length (c :: s)).length = s.length + 1 - pat.length := by
    simp [List.length_drop]
  exact subLitAux_fuel pat rep hpat s.length s.length (List.drop pat.length (c :: s)).length
    (List.drop pat.length (c :: s)) (by omega) (by omega) (Nat.le_refl _)

/-! ### Walker lemmas -/

mutual
/-- The fragments appended by visiting one entry do not depend on the
accumulator already collected: the walk only ever appends. -/
theorem walkEntry_append : ∀ (e : Entry) (d : Nat) (p : List Char)
    (acc : List VTEMarkdownFile),
    walkEntry e d p acc = Except.map (fun l => acc ++ l) (walkEntry e d p [])
  | .file name rr, d, p, acc => by
      cases rr with
      | ok content => simp [walkEntry, Except.map]
      | error m => simp [walkEntry, Except.map]
  | .dir name ch, d, p, acc => by
      simp only [walkEntry]
      exact walkList_append ch (d + 1) (p ++ firstToken (stem name) ++ ['.']) acc

/-- The fragments appended by walking a list of entries do not depend
on the accumulator already collected. -/
theorem walkList_append : ∀ (es : EntryList) (d : Nat) (p : List Char)
    (acc : List VTEMarkdownFile),
    walkList es d p acc = Except.map (fun l => acc ++ l) (walkList es d p [])
  | .nil, d, p, acc => by simp [walkList, Except.map]
  | .cons e es, d, p, acc => by
      simp only [walkList]
      rw [walkEntry_append e d p acc]
      cases he : walkEntry e d p [] with
      | error m => simp [Except.map]
      | ok l =>
        simp only [Except.map]
        rw [walkList_append es d p (acc ++ l), walkList_append es d p l]
        cases hw : walkList es d p [] with
        | error m => simp [Except.map]
        | ok r => simp [Except.map, List.append_assoc]
end

mutual
/-- A failing read below an entry makes the visit of that entry fail. -/
theorem walkEntry_error : ∀ (e : Entry) (d : Nat) (p : List Char)
    (acc : List VTEMarkdownFile), entryUnreadable e = true →
    ∃ m, walkEntry e d p acc = Except.error m
  | .file name rr, d, p, acc => by
      intro h
      cases rr with
      | ok content => exact absurd h (by simp [entryUnreadable])
      | error m => exact ⟨m, rfl⟩
  | .dir name ch, d, p, acc => by
      intro h
      simp only [walkEntry]
      exact walkList_error ch (d + 1) (p ++ firstToken (stem name) ++ ['.']) acc h

/-- A failing read below a list of entries makes the walk of that list
fail. -/
theorem walkList_error : ∀ (es : EntryList) (d : Nat) (p : List Char)
    (acc : List VTEMarkdownFile), listUnreadable es = true →
    ∃ m, walkList es d p acc = Except.error m
  | .nil, d, p, acc => by
      intro h
      exact absurd h (by simp [listUnreadable])
  | .cons e es, d, p, acc => by
      intro h
      simp only [listUnreadable, Bool.or_eq_true] at h
      simp only [walkList]
      cases he : walkEntry e d p acc with
      | error m => exact ⟨m, rfl⟩
      | ok acc2 =>
        rcases h with h | h
        · obtain ⟨m, hm⟩ := walkEntry_error e d p acc h
          rw [hm] at he
          exact absurd he (by simp)
        · exact walkList_error es d p acc2 h
end

mutual
/-- Every fragment collected below an entry visited with parent
prefix `p` either was already in the accumulator or has a prefix that
strictly extends `p`. -/
theorem walkEntry_pfx : ∀ (e : Entry) (d : Nat) (p : List Char)
    (acc res : List VTEMarkdownFile), walkEntry e d p acc = Except.ok res →
    ∀ f ∈ res, f ∈ acc ∨ (p <+: f.pfx ∧ p ≠ f.pfx)
  | .file name rr, d, p, acc, res => by
      intro h f hf
      cases rr with
      | error m => exact absurd h (by simp [walkEntry])
      | ok content =>
        simp only [walkEntry, Except.ok.injEq] at h
        subst h
        rcases List.mem_append.mp hf with hfa | hfv
        · exact Or.inl hfa
        · right
          have hfv2 := List.mem_singleton.mp hfv
          subst hfv2
          refine ⟨⟨firstToken (stem name) ++ ['.'], by simp⟩, ?_⟩
          intro hpe
          have hlen := congrArg List.length hpe
          simp only [List.length_append, List.length_cons, List.length_nil] at hlen
          omega
  | .dir name ch, d, p, acc, res => by
      intro h f hf
      simp only [walkEntry] at h
      rcases walkList_pfx ch (d + 1) (p ++ firstToken (stem name) ++ ['.']) acc res h f hf with
        hin | ⟨hpre, hne⟩
      · exact Or.inl hin
      · right
        have hp : p <+: p ++ firstToken (stem name) ++ ['.'] := ⟨firstToken (stem name) ++ ['.'], by simp⟩
        constructor
        · exact hp.trans hpre
        · intro hpe
          have h1 := hpre.length_le
          have h2 := congrArg List.length hpe
          simp [List.length_append] at h1 h2
          omega

/-- Every fragment collected by walking a list of entries with parent
prefix `p` either was already in the accumulator or has a prefix that
strictly extends `p`. -/
theorem walkList_pfx : ∀ (es : EntryList) (d : Nat) (p : List Char)
    (acc res : List VTEMarkdownFile), walkList es d p acc = Except.ok res →
    ∀ f ∈ res, f ∈ acc ∨ (p <+: f.pfx ∧ p ≠ f.pfx)
  | .nil, d, p, acc, res => by
      intro h f hf
      simp only [walkList, Except.ok.injEq] at h
      subst h
      exact Or.inl hf
  | .cons e es, d, p, acc, res => by
      intro h f hf
      simp only [walkList] at h
      cases he : walkEntry e d p acc with
      | error m => rw [he] at h; exact absurd h (by simp)
      | ok acc2 =>
        rw [he] at h
        rcases walkList_pfx es d p acc2 res h f hf with hin | hstrict
        · exact walkEntry_pfx e d p acc acc2 he f hin
        · exact Or.inr hstrict
end

/-! ### Tokenisation lemmas -/

theorem splitOnChar_of_not_mem (sep : Char) :
    ∀ s : List Char, sep ∉ s → splitOnChar sep s = [s] := by
  intro s
  induction s with
  | nil => intro _; rfl
  | cons c rest ih =>
    intro h
    have hc : ¬ c = sep := fun he => h (by simp [he])
    have hr : sep ∉ rest := fun hm => h (List.mem_cons_of_mem c hm)
    simp only [splitOnChar, if_neg hc, ih hr]

theorem splitOnChar_append_sep (sep : Char) :
    ∀ (a b : List Char), sep ∉ a → splitOnChar sep (a ++ sep :: b) = a :: splitOnChar sep b := by
  intro a
  induction a with
  | nil => intro b _; simp [splitOnChar]
  | cons c a2 ih =>
    intro b h
    have hc : ¬ c = sep := fun he => h (by simp [he])
    have ha : sep ∉ a2 := fun hm => h (List.mem_cons_of_mem c hm)
    rw [List.cons_append]
    simp only [splitOnChar, if_neg hc]
    rw [ih b ha]

theorem underToSpace_append (a b : List Char) :
    underToSpace (a ++ b) = underToSpace a ++ underToSpace b :=
  List.map_append _ a b

theorem underToSpace_cons_und (b : List Char) :
    underToSpace ('_' :: b) = ' ' :: underToSpace b := rfl

theorem underToSpace_no_und : ∀ t : List Char, '_' ∉ t → underToSpace t = t := by
  intro t
  induction t with
  | nil => intro _; rfl
  | cons c r ih =>
    intro h
    have hc : ¬ c = '_' := fun he => h (by simp [he])
    have hr : '_' ∉ r := fun hm => h (List.mem_cons_of_mem c hm)
    show (if c = '_' then ' ' else c) :: underToSpace r = c :: r
    rw [if_neg hc, ih hr]

theorem underToSpace_space_mem (t : List Char) (hs : ' ' ∉ t) (hu : '_' ∉ t) :
    ' ' ∉ underToSpace t := by
  rw [underToSpace_no_und t hu]
  exact hs

theorem tokensOf_single (t : List Char) (hu : '_' ∉ t) (hs : ' ' ∉ t) :
    tokensOf t = [t] := by
  unfold tokensOf
  rw [underToSpace_no_und t hu]
  exact splitOnChar_of_not_mem ' ' t hs

theorem tokensOf_three (t w1 w2 : List Char) (ht1 : '_' ∉ t) (ht2 : ' ' ∉ t)
    (h11 : '_' ∉ w1) (h12 : ' ' ∉ w1) (h21 : '_' ∉ w2) (h22 : ' ' ∉ w2) :
    tokensOf (t ++ '_' :: (w1 ++ '_' :: w2)) = [t, w1, w2] := by
  unfold tokensOf
  rw [underToSpace_append, underToSpace_cons_und, underToSpace_append, underToSpace_cons_und,
    underToSpace_no_und t ht1, underToSpace_no_und w1 h11, underToSpace_no_und w2 h21,
    splitOnChar_append_sep ' ' t _ ht2, splitOnChar_append_sep ' ' w1 w2 h12,
    splitOnChar_of_not_mem ' ' w2 h22]

/-- C6: the Naming-Convention Parser splits an entry's stem on
underscores-treated-as-spaces; the first token is the ordering token
and the remaining tokens rejoined with single spaces form the title.
The parse never fails (the token list is never empty); a single-token
name yields that token with an empty title; a name
`token_word1_word2` yields ordering token `token` and title
`word1 word2`. -/
theorem c6_naming_convention_parse :
    (∀ s : List Char, tokensOf s ≠ []) ∧
    (∀ t : List Char, '_' ∉ t → ' ' ∉ t →
      tokensOf t = [t] ∧ firstToken t = t ∧ titleOf t = []) ∧
    (∀ t w1 w2 : List Char, '_' ∉ t → ' ' ∉ t → '_' ∉ w1 → ' ' ∉ w1 → '_' ∉ w2 → ' ' ∉ w2 →
      tokensOf (t ++ '_' :: (w1 ++ '_' :: w2)) = [t, w1, w2] ∧
      firstToken (t ++ '_' :: (w1 ++ '_' :: w2)) = t ∧
      titleOf (t ++ '_' :: (w1 ++ '_' :: w2)) = w1 ++ ' ' :: w2) := by
  refine ⟨fun s => splitOnChar_ne_nil ' ' (underToSpace s), ?_, ?_⟩
  · intro t hu hs
    have h := tokensOf_single t hu hs
    exact ⟨h, by rw [firstToken, h]; rfl, by rw [titleOf, h]; rfl⟩
  · intro t w1 w2 ht1 ht2 h11 h12 h21 h22
    have h := tokensOf_three t w1 w2 ht1 ht2 h11 h12 h21 h22
    exact ⟨h, by rw [firstToken, h]; rfl, by rw [titleOf, h]; rfl⟩

/-- Witness for C6 at the concrete names `3_word1_word2` and `7`. -/
theorem c6_witness :
    titleOf "3_word1_word2".data = "word1 word2".data ∧
    firstToken "3_word1_word2".data = "3".data ∧
    firstToken "7".data = "7".data ∧ titleOf "7".data = [] := by
  have h3 := c6_naming_convention_parse.2.2 "3".data "word1".data "word2".data
    (by decide) (by decide) (by decide) (by decide) (by decide) (by decide)
  have h7 := c6_naming_convention_parse.2.1 "7".data (by decide) (by decide)
  have heq : "3_word1_word2".data = "3".data ++ '_' :: ("word1".data ++ '_' :: "word2".data) := rfl
  refine ⟨?_, ?_, h7.2.1, h7.2.2⟩
  · rw [heq, h3.2.2]
    rfl
  · rw [heq, h3.2.1]

/-! ### Claim theorems -/

/-- C5: for every entry discovered by the walker, the entry's prefix
is its parent's prefix followed by the entry's leading ordering token
and a dot (shown by the walker's defining equations for a file child
and for descent into a directory child), and consequently the prefix
of every fragment collected below a directory strictly extends that
directory's prefix as a string prefix. -/
theorem c5_prefix_construction :
    (∀ (name content : List Char) (es : EntryList) (d : Nat) (p : List Char)
      (acc : List VTEMarkdownFile),
      walkList (.cons (.file name (.ok content)) es) d p acc =
        walkList es d p (acc ++ [VTEMarkdownFile.mk content d
          (p ++ firstToken (stem name) ++ ['.']) (titleOf (stem name))])) ∧
    (∀ (name : List Char) (ch : EntryList) (d : Nat) (p : List Char)
      (acc : List VTEMarkdownFile),
      walkEntry (.dir name ch) d p acc =
        walkList ch (d + 1) (p ++ firstToken (stem name) ++ ['.']) acc) ∧
    (∀ (es : EntryList) (d : Nat) (p : List Char) (acc res : List VTEMarkdownFile),
      walkList es d p acc = Except.ok res →
      ∀ f ∈ res, f ∈ acc ∨ (p <+: f.pfx ∧ p ≠ f.pfx)) :=
  ⟨fun _ _ _ _ _ _ => rfl, fun _ _ _ _ _ => rfl, walkList_pfx⟩

/-- Witness for C5: walking a root that holds `2_Setup/1_Install.md`
with the empty parent prefix produces a fragment whose prefix `2.1.`
strictly extends the empty prefix. -/
theorem c5_witness :
    ([] : List Char) <+: "2.1.".data ∧ ([] : List Char) ≠ "2.1.".data := by
  have h := c5_prefix_construction.2.2
    (ofList [Entry.dir "2_Setup".data
      (ofList [Entry.file "1_Install.md".data (Except.ok "Install steps.".data)])])
    0 [] []
    [VTEMarkdownFile.mk "Install steps.".data 1 "2.1.".data "Install".data]
    rfl
    (VTEMarkdownFile.mk "Install steps.".data 1 "2.1.".data "Install".data)
    (by decide)
  rcases h with h | h
  · exact absurd h (List.not_mem_nil _)
  · exact h

/-- C10: a top-level invocation of the walker without an accumulator
argument (`none`, the Python default `None`) starts from a fresh empty
accumulator, and the walk only appends to whatever accumulator it is
given: its result is the given accumulator followed by fragments
determined by the walked tree alone.  Hence two top-level walks share
no state and the second walk's collection holds only fragments of its
own tree. -/
theorem c10_fresh_accumulator :
    (∀ (es : EntryList) (d : Nat) (p : List Char),
      process_files_in_directory es d p none = walkList es d p []) ∧
    (∀ (es : EntryList) (d : Nat) (p : List Char) (acc : List VTEMarkdownFile),
      walkList es d p acc = Except.map (fun l => acc ++ l) (walkList es d p [])) :=
  ⟨fun _ _ _ => rfl, walkList_append⟩

/-- C9: if any file of the language tree cannot be read, the whole
build for that language aborts with an error and no merged document is
produced (the embedded assembler returns `Except.error` and never
reaches the write of the output string). -/
theorem c9_read_failure_atomicity :
    ∀ es : EntryList, listUnreadable es = true →
      ∃ m, generate_markdown_from_sources es = Except.error m := by
  intro es h
  obtain ⟨m, hm⟩ := walkList_error es 0 [] [] h
  refine ⟨m, ?_⟩
  unfold generate_markdown_from_sources process_files_in_directory
  rw [Option.getD_none, hm]

/-- Witness for C9 at a concrete tree with an unreadable file. -/
theorem c9_witness :
    ∃ m, generate_markdown_from_sources badTree = Except.error m :=
  c9_read_failure_atomicity badTree rfl

/-- C7: a content string in which none of the four patterns occurs
(the reserved image-directory reference `/images/`, the literal
`.svg`, the root-relative link opener `](/`, and the marked
cross-reference `](!...)`) is returned unchanged by the full rewrite
pipeline. -/
theorem c7_rewriter_identity :
    ∀ s : List Char, occurs imagesAbs s = false → occurs svgExt s = false →
      occurs rootLink s = false → hasCrossRef s = false → rewriteContent s = s := by
  intro s h1 h2 h3 h4
  unfold rewriteContent
  rw [subLit_id imagesAbs imagesRel s h1, subLit_id svgExt pngExt s h2,
    subLit_id rootLink siteUrl s h3, subCrossRef_id s h4]

/-- Witness for C7 at a concrete pattern-free content string. -/
theorem c7_witness :
    rewriteContent "See [the guide](guide.md) and ![pic](images/a.png).".data =
      "See [the guide](guide.md) and ![pic](images/a.png).".data :=
  c7_rewriter_identity _ (by decide) (by decide) (by decide) (by decide)

/-- C4: a marked reference `](!target)` (target non-empty, free of
`')'`) is rewritten into the anchor link `](#segment)` where `segment`
is the final path segment of the target, lower-cased, with every
underscore replaced by a hyphen, and the scan continues after the
closing parenthesis. -/
theorem c4_cross_reference_resolution :
    ∀ (p rest : List Char), p ≠ [] → (∀ c ∈ p, c ≠ ')') →
      subCrossRef (']' :: '(' :: '!' :: (p ++ ')' :: rest)) =
        ']' :: '(' :: '#' :: (underToHyphen (lowerStr (lastSegment p)) ++ ')' :: subCrossRef rest) := by
  intro p rest hne hp
  rw [subCrossRef_cons_some (crMatch_spec p rest hne hp)]
  unfold crossRepl
  rw [crossNormalize_comm]
  simp [List.append_assoc]

/-- Witness for C4 at the spec's example `](!/path/to/Some_Chapter)`. -/
theorem c4_witness :
    subCrossRef "](!/path/to/Some_Chapter)".data = "](#some-chapter)".data := by
  have h := c4_cross_reference_resolution "/path/to/Some_Chapter".data [] (by decide) (by decide)
  have heq : "](!/path/to/Some_Chapter)".data =
      ']' :: '(' :: '!' :: ("/path/to/Some_Chapter".data ++ ')' :: []) := rfl
  rw [heq, h]
  decide

/-- C8: a root-relative link opener `](/` followed by a tail that does
not begin with the reserved image directory and is free of the four
patterns is absolutized by prefixing the site base URL, and a
reserved image-directory reference `](/images/...` (already fixed by
rewrite step 1) is not absolutized. -/
theorem c8_root_relative_absolutization :
    (∀ t : List Char, imagesRel.isPrefixOf t = false → occurs imagesAbs t = false →
      occurs svgExt t = false → occurs rootLink t = false → hasCrossRef t = false →
      rewriteContent (']' :: '(' :: '/' :: t) = siteUrl ++ t) ∧
    rewriteContent "](/images/foo.png)".data = "](images/foo.png)".data := by
  constructor
  · intro t hrel h1 h2 h3 h4
    unfold rewriteContent
    have e1 : occurs imagesAbs (']' :: '(' :: '/' :: t) =
        (imagesRel.isPrefixOf t || occurs imagesAbs t) := rfl
    have e1f : occurs imagesAbs (']' :: '(' :: '/' :: t) = false := by
      rw [e1, hrel, h1]
      rfl
    rw [subLit_id imagesAbs imagesRel _ e1f]
    have e2 : occurs svgExt (']' :: '(' :: '/' :: t) = occurs svgExt t := rfl
    rw [subLit_id svgExt pngExt _ (e2.trans h2)]
    have hpre : rootLink.isPrefixOf (']' :: '(' :: '/' :: t) = true := by
      cases t <;> rfl
    rw [subLit_cons_of_isPre (by decide) hpre]
    have hdrop : List.drop rootLink.length (']' :: '(' :: '/' :: t) = t := rfl
    rw [hdrop, subLit_id rootLink siteUrl t h3]
    have hcr : hasCrossRef (siteUrl ++ t) = hasCrossRef t := rfl
    exact subCRAux_id _ _ (hcr.trans h4)
  · rfl

/-- Witness for C8 at the spec's example `](/some/path)`. -/
theorem c8_witness :
    rewriteContent "](/some/path)".data = "](https://vulkan-tutorial.com/some/path)".data := by
  have h := c8_root_relative_absolutization.1 "some/path)".data
    (by decide) (by decide) (by decide) (by decide) (by decide)
  have heq : "](/some/path)".data = ']' :: '(' :: '/' :: "some/path)".data := rfl
  rw [heq, h]
  rfl

/-- C1 counterexample: in the spec's end-to-end scenario the marked
reference `](!/2_Setup)` is resolved from the referenced path's final
segment `2_Setup`, so the assembled document reads
`Hello [there](#2-setup)` and the string `Hello [there](#1-install)`
claimed by the spec occurs nowhere in it. -/
theorem c1_counterexample :
    generate_markdown_from_sources introTree =
      Except.ok
        "# Introduction\n\nHello [there](#2-setup)\n\n# Install\n\nInstall steps.\n\n".data ∧
    occurs "Hello [there](#1-install)".data
      "# Introduction\n\nHello [there](#2-setup)\n\n# Install\n\nInstall steps.\n\n".data =
      false :=
  ⟨rfl, by decide⟩

/-- C1 amended: the assembled document of the end-to-end scenario is
exactly the heading `# Introduction`, then `Hello [there](#2-setup)`,
then the heading `# Install`, then `Install steps.`, in this order
(prefix-based ordering across nesting holds; the cross-reference
resolves to the normalized final segment of the referenced path,
`#2-setup`, not to `#1-install`). -/
theorem c1_end_to_end_amended :
    generate_markdown_from_sources introTree =
      Except.ok
        "# Introduction\n\nHello [there](#2-setup)\n\n# Install\n\nInstall steps.\n\n".data :=
  rfl

/-- C2 counterexample: the fragment of `1_Chapter_about_.svg_files.md`
has parsed title `Chapter about .svg files`, but the emitted heading
of the merged document reads `# Chapter about .png files` — the
rewrite steps are applied to the heading too, so the title is not
emitted unchanged. -/
theorem c2_counterexample :
    titleOf (stem "1_Chapter_about_.svg_files.md".data) = "Chapter about .svg files".data ∧
    generate_markdown_from_sources svgTitleTree =
      Except.ok "# Chapter about .png files\n\nbody\n\n".data ∧
    "# Chapter about .png files\n\nbody\n\n".data ≠
      "# Chapter about .svg files\n\nbody\n\n".data :=
  ⟨rfl, rfl, by decide⟩

/-- C2 amended: the four rewrite steps are applied to the
concatenation of the heading and the content, so the emitted heading
shows the parsed title exactly when that concatenation is free of the
four patterns; a title containing a pattern (such as `.svg`) is
rewritten in the heading. -/
theorem c2_title_amended :
    ∀ f : VTEMarkdownFile,
      occurs imagesAbs ('#' :: ' ' :: f.title ++ '\n' :: '\n' :: f.content) = false →
      occurs svgExt ('#' :: ' ' :: f.title ++ '\n' :: '\n' :: f.content) = false →
      occurs rootLink ('#' :: ' ' :: f.title ++ '\n' :: '\n' :: f.content) = false →
      hasCrossRef ('#' :: ' ' :: f.title ++ '\n' :: '\n' :: f.content) = false →
      renderFragment f = '#' :: ' ' :: f.title ++ '\n' :: '\n' :: f.content := by
  intro f h1 h2 h3 h4
  unfold renderFragment rewriteContent
  rw [subLit_id imagesAbs imagesRel _ h1, subLit_id svgExt pngExt _ h2,
    subLit_id rootLink siteUrl _ h3, subCrossRef_id _ h4]

/-- Witness for the amended C2 at a concrete pattern-free fragment. -/
theorem c2_witness :
    renderFragment (VTEMarkdownFile.mk "body".data 0 "1.".data "Intro".data) =
      "# Intro\n\nbody".data := by
  have h := c2_title_amended (VTEMarkdownFile.mk "body".data 0 "1.".data "Intro".data)
    (by decide) (by decide) (by decide) (by decide)
  rw [h]
  rfl

/-- C3 counterexample: rewrite step 1 also fires on a non-leading
`/images/` path component: `](/other/images/x.png)` comes out of the
pipeline as `](https://vulkan-tutorial.com/otherimages/x.png)`, with
the separator between `other` and `images` destroyed, not as the
claimed `](https://vulkan-tutorial.com/other/images/x.png)`. -/
theorem c3_counterexample :
    rewriteContent "](/other/images/x.png)".data =
      "](https://vulkan-tutorial.com/otherimages/x.png)".data ∧
    rewriteContent "](/other/images/x.png)".data ≠
      "](https://vulkan-tutorial.com/other/images/x.png)".data :=
  ⟨rfl, by decide⟩

/-- C3 amended: rewrite step 1 replaces every occurrence of the
substring `/images/` by `images/`, wherever it occurs (so a
non-leading occurrence loses its leading separator), and leaves any
string without that substring unchanged. -/
theorem c3_images_amended :
    (∀ s : List Char, occurs imagesAbs s = false → subLit imagesAbs imagesRel s = s) ∧
    subLit imagesAbs imagesRel "](/other/images/x.png)".data = "](/otherimages/x.png)".data :=
  ⟨fun s h => subLit_id imagesAbs imagesRel s h, rfl⟩

/-- Witness for the amended C3 at a concrete string without the
reserved image-directory substring. -/
theorem c3_witness :
    subLit imagesAbs imagesRel "a picture ![x](images/x.png) here".data =
      "a picture ![x](images/x.png) here".data :=
  c3_images_amended.1 _ (by decide)
